import Mathlib

/-!
Shallow embedding of the attribute-synchronization and wall-decomposition
subsystem of `Source/Scene/GroundPolylinePrimitive.js`.

Numeric attribute components and distances are modelled as rationals.
JavaScript functions that can return `undefined` are embedded as
`Option`-returning functions (`none` models `undefined`); the setter
closure, which can throw a `DeveloperError`, is embedded in `Except`.
Mutation of the batch table and of the id-to-range map is embedded by
explicit state passing.
-/

namespace GroundPolyline

/-- A decoded attribute value: the result of `getAttributeValue`, which is a
scalar for a 1-component buffer and a Cartesian2/3/4 for 2/3/4 components. -/
inductive AttrValue where
  | scalar (x : ℚ)
  | vec2 (x y : ℚ)
  | vec3 (x y z : ℚ)
  | vec4 (x y z w : ℚ)
deriving DecidableEq

/-- The batch table owned by the rendering primitive (`_primitive._batchTable`):
per-attribute declared component count (`attributes[j].componentsPerAttribute`)
and the slot contents indexed by (instance index, attribute index).  A slot
holds `none` when nothing (or JavaScript `undefined`) was stored there. -/
structure BatchTable where
  componentsPerAttribute : ℕ → ℕ
  data : ℤ → ℕ → Option AttrValue

/-- `batchTable.setBatchedAttribute(i, attributeIndex, value)`: point update of
one slot. -/
def setBatchedAttribute (batchTable : BatchTable) (i : ℤ) (attributeIndex : ℕ)
    (v : Option AttrValue) : BatchTable :=
  { batchTable with
    data := fun i' j' =>
      if i' = i ∧ j' = attributeIndex then v else batchTable.data i' j' }

/-- `batchTable.getBatchedAttribute(i, attributeIndex)`. -/
def getBatchedAttribute (batchTable : BatchTable) (i : ℤ) (attributeIndex : ℕ) :
    Option AttrValue :=
  batchTable.data i attributeIndex

/-- `getAttributeValue(value)` from the source: branches on
`value.length`; 1 component yields the bare scalar, 2/3/4 yield an unpacked
Cartesian2/3/4 (`CartesianN.unpack` reads components `0..N-1`; modelled from
the spec, as the Cartesian types live outside `src/`).  Any other length falls
through every branch and the function returns `undefined`, embedded as
`none`. -/
def getAttributeValue (value : List ℚ) : Option AttrValue :=
  let componentsPerAttribute := value.length
  if componentsPerAttribute = 1 then
    some (AttrValue.scalar (value.getD 0 0))
  else if componentsPerAttribute = 2 then
    some (AttrValue.vec2 (value.getD 0 0) (value.getD 1 0))
  else if componentsPerAttribute = 3 then
    some (AttrValue.vec3 (value.getD 0 0) (value.getD 1 0) (value.getD 2 0))
  else if componentsPerAttribute = 4 then
    some (AttrValue.vec4 (value.getD 0 0) (value.getD 1 0) (value.getD 2 0) (value.getD 3 0))
  else
    none

/-- Modelled from the spec: `CartesianN.pack(value, array, 0)` writes the N
components into consecutive slots starting at 0 (the Cartesian types are Core
code not under `src/`); a bare scalar is written into slot 0
(`value[0] = attributeValue`).  Writes beyond the array's length are dropped,
as for a JavaScript typed array, which is `List.set`'s behaviour. -/
def pack (attributeValue : AttrValue) (arr : List ℚ) : List ℚ :=
  match attributeValue with
  | .scalar x => arr.set 0 x
  | .vec2 x y => (arr.set 0 x).set 1 y
  | .vec3 x y z => ((arr.set 0 x).set 1 y).set 2 z
  | .vec4 x y z w => (((arr.set 0 x).set 1 y).set 2 z).set 3 w

/-- The ascending list of integer indices visited by
`for (var i = first; i <= last; i++)`; empty when `first > last`. -/
def intRange (first last : ℤ) : List ℤ :=
  (List.range (last + 1 - first).toNat).map (fun n : ℕ => first + (n : ℤ))

/-- The message of the `DeveloperError` thrown by the setter closure. -/
def invalidValueMsg : String :=
  "value must be and array with length between 1 and 4."

/-- The loop body of the setter: for each index of the range, decode the value
(the source re-decodes on every iteration; decoding is pure, so the decoded
slot is the same each time) and store it. -/
def setLoop (batchTable : BatchTable) (firstInstanceIndex lastInstanceIndex : ℤ)
    (attributeIndex : ℕ) (value : List ℚ) : BatchTable :=
  (intRange firstInstanceIndex lastInstanceIndex).foldl
    (fun bt i => setBatchedAttribute bt i attributeIndex (getAttributeValue value))
    batchTable

/-- `createSetFunction(batchTable, firstInstanceIndex, lastInstanceIndex,
attributeIndex)`'s returned closure, in state-passing style.  The argument
`value` is `none` when the caller passes `undefined` or a non-array (no
`length`); a defined array is `some` of its component list.  The closure
throws a `DeveloperError` when the value is undefined, lacks a length, or has
length outside 1..4, before any slot is written; otherwise it writes every
index from `firstInstanceIndex` to `lastInstanceIndex` inclusive. -/
def createSetFunction (firstInstanceIndex lastInstanceIndex : ℤ)
    (attributeIndex : ℕ) (batchTable : BatchTable) (value : Option (List ℚ)) :
    Except String BatchTable :=
  match value with
  | none => Except.error invalidValueMsg
  | some v =>
    if v.length < 1 ∨ 4 < v.length then
      Except.error invalidValueMsg
    else
      Except.ok (setLoop batchTable firstInstanceIndex lastInstanceIndex attributeIndex v)

/-- `createGetFunction(batchTable, instanceIndex, attributeIndex)`'s returned
closure: read the slot, allocate a typed array of the attribute's declared
`componentsPerAttribute` length (zero-initialised), and pack the stored value
into it.  Reading an empty slot is a failure (`attributeValue.constructor`
on `undefined` throws in JavaScript), embedded as `none`. -/
def createGetFunction (instanceIndex : ℤ) (attributeIndex : ℕ)
    (batchTable : BatchTable) : Option (List ℚ) :=
  match getBatchedAttribute batchTable instanceIndex attributeIndex with
  | none => none
  | some attributeValue =>
    let componentsPerAttribute := batchTable.componentsPerAttribute attributeIndex
    some (pack attributeValue (List.replicate componentsPerAttribute (0 : ℚ)))

/-- One logical terrain-draped line, as `decompose` consumes it.  `width` and
`lengthOnEllipsoid` are the fields the source reads directly.  `pointCount`
and `edgeLens` are modelled from the spec (the path and
`GroundPolylineGeometry.createWallVertices` are Core code not under `src/`):
the wall vertex set holds one 3-entry vertex triple per sampled path point,
and each consecutive pair of sampled points contributes one bottom-edge
length. -/
structure GroundPolylineGeometry where
  width : ℚ
  lengthOnEllipsoid : ℚ
  pointCount : ℕ
  edgeLens : List ℚ
deriving DecidableEq

/-- Modelled from the spec: the flat entry count of the Wall Vertex Set
(`rightFacingNormals.length`) produced by `createWallVertices` — three entries
per sampled path point. -/
def verticesLength (g : GroundPolylineGeometry) : ℕ :=
  3 * g.pointCount

/-- Modelled from the spec: `segmentBottomLength` of the segment geometry
`GroundLineGeometry.fromArrays(i, ...)` builds from the 3-entry window at flat
offset `i` — the bottom-edge length between sampled points `i/3` and
`i/3 + 1` (`GroundLineGeometry` is Core code not under `src/`). -/
def segmentBottomLength (g : GroundPolylineGeometry) (i : ℤ) : ℚ :=
  g.edgeLens.getD (i / 3).toNat 0

/-- A geometry instance handed to `decompose`: a client id and its
`GroundPolylineGeometry`. -/
structure GeometryInstance where
  id : ℕ
  geometry : GroundPolylineGeometry
deriving DecidableEq

/-- One segment instance pushed onto `polylineSegmentInstances`: the logical
id it is tagged with and the per-segment attributes the loop body attaches
(`lengthSoFar`, `segmentLength`, `totalLength`, and the shared `width`). -/
structure Segment where
  id : ℕ
  startDistance : ℚ
  segmentLength : ℚ
  totalLength : ℚ
  width : ℚ
deriving DecidableEq

/-- Fuel-indexed unrolling of the loop `for (var i = ...; i < bound; i += 3)`;
the fuel only bounds the recursion depth and `jsLoop` always supplies enough
of it (`jsLoopFuel_congr` below shows any sufficient fuel gives the same
list). -/
def jsLoopFuel : ℕ → ℤ → ℤ → List ℤ
  | 0, _, _ => []
  | Nat.succ n, i, bound => if i < bound then i :: jsLoopFuel n (i + 3) bound else []

/-- The flat offsets visited by `for (var i = 0; i < verticesLength - 3; i += 3)`,
generalised to an arbitrary starting offset; the bound is evaluated over ℤ
exactly as JavaScript evaluates `verticesLength - 3`. -/
def jsLoop (i bound : ℤ) : List ℤ :=
  jsLoopFuel (bound - i).toNat i bound

/-- The body of `decompose`'s loop: for each visited offset, form the segment
from the window there, record `lengthSoFar` as its start distance, and advance
`lengthSoFar` by the segment's bottom length. -/
def buildSegments (commonId : ℕ) (g : GroundPolylineGeometry)
    (lengthSoFar : ℚ) : List ℤ → List Segment
  | [] => []
  | i :: rest =>
    let segmentLength := segmentBottomLength g i
    { id := commonId
      startDistance := lengthSoFar
      segmentLength := segmentLength
      totalLength := g.lengthOnEllipsoid
      width := g.width } :: buildSegments commonId g (lengthSoFar + segmentLength) rest

/-- The id-to-range map `_idsToInstanceIndices`: logical id to
`[first segment index, last segment index]`. -/
abbrev IndexMap := ℕ → Option (ℤ × ℤ)

/-- `decompose(geometryInstance, polylineSegmentInstances, idsToInstanceIndices)`
in state-passing style: append one segment instance per visited window, then
record `[segmentIndicesStart, polylineSegmentInstances.length - 1]` for the
instance's id — unconditionally, even when the loop produced no segments. -/
def decompose (geometryInstance : GeometryInstance)
    (polylineSegmentInstances : List Segment) (idsToInstanceIndices : IndexMap) :
    List Segment × IndexMap :=
  let g := geometryInstance.geometry
  let commonId := geometryInstance.id
  let segmentIndicesStart := polylineSegmentInstances.length
  let newSegs := buildSegments commonId g 0 (jsLoop 0 ((verticesLength g : ℤ) - 3))
  let out := polylineSegmentInstances ++ newSegs
  (out, fun x =>
    if x = commonId then some ((segmentIndicesStart : ℤ), (out.length : ℤ) - 1)
    else idsToInstanceIndices x)

/-- The decomposition pass of `GroundPolylinePrimitive.prototype.update`:
decompose every geometry instance in order into one flat segment list and one
id-to-range map. -/
def decomposeAll (geometryInstances : List GeometryInstance) :
    List Segment × IndexMap :=
  geometryInstances.foldl (fun acc gi => decompose gi acc.1 acc.2) ([], fun _ => none)

/-- `getGeometryInstanceAttributes(id)` after the primitive has been built:
look the id up in `_idsToInstanceIndices`; `none` (JavaScript `undefined`) when
absent, otherwise the range the (cached) `InstanceAttributeSynchronizer` is
constructed over. -/
def getGeometryInstanceAttributes (idsToInstanceIndices : IndexMap) (id : ℕ) :
    Option (ℤ × ℤ) :=
  idsToInstanceIndices id

/-- Membership of a segment index in a stored `[first, last]` range. -/
def rangeMem (i : ℤ) (r : ℤ × ℤ) : Prop :=
  r.1 ≤ i ∧ i ≤ r.2

instance (i : ℤ) (r : ℤ × ℤ) : Decidable (rangeMem i r) := by
  unfold rangeMem
  infer_instance

/-- Default segment used with `List.getD`. -/
def dfltSeg : Segment :=
  { id := 0, startDistance := 0, segmentLength := 0, totalLength := 0, width := 0 }

/-- Any two sufficient amounts of fuel unroll the loop to the same list. -/
theorem jsLoopFuel_congr :
    ∀ (n m : ℕ) (i bound : ℤ), (bound - i).toNat ≤ n → (bound - i).toNat ≤ m →
      jsLoopFuel n i bound = jsLoopFuel m i bound := by
  intro n
  induction n with
  | zero =>
    intro m i bound hn hm
    have hb : ¬ i < bound := by omega
    cases m with
    | zero => rfl
    | succ m => simp [jsLoopFuel, hb]
  | succ n ih =>
    intro m i bound hn hm
    cases m with
    | zero =>
      have hb : ¬ i < bound := by omega
      simp [jsLoopFuel, hb]
    | succ m =>
      by_cases hb : i < bound
      · simp only [jsLoopFuel, if_pos hb, List.cons.injEq, true_and]
        exact ih m (i + 3) bound (by omega) (by omega)
      · simp [jsLoopFuel, hb]

/-- `jsLoop` satisfies the loop's natural unfolding. -/
theorem jsLoop_unfold (i bound : ℤ) :
    jsLoop i bound = if i < bound then i :: jsLoop (i + 3) bound else [] := by
  unfold jsLoop
  by_cases hb : i < bound
  · obtain ⟨k, hk⟩ : ∃ k, (bound - i).toNat = k + 1 := ⟨(bound - i).toNat - 1, by omega⟩
    rw [hk]
    simp only [jsLoopFuel, if_pos hb, List.cons.injEq, true_and]
    exact jsLoopFuel_congr k ((bound - (i + 3)).toNat) (i + 3) bound (by omega) (by omega)
  · have hk : (bound - i).toNat = 0 := by omega
    rw [hk]
    simp [jsLoopFuel, hb]

/-- The loop from offset `i` with bound `i + 3 n` visits exactly the offsets
`i, i + 3, ..., i + 3 (n - 1)`. -/
theorem jsLoop_eq_map (n : ℕ) :
    ∀ i : ℤ, jsLoop i (i + 3 * n) = (List.range n).map (fun k : ℕ => i + 3 * (k : ℤ)) := by
  induction n with
  | zero =>
    intro i
    rw [jsLoop_unfold]
    simp
  | succ n ih =>
    intro i
    rw [jsLoop_unfold, if_pos (by push_cast; omega)]
    have h3 : i + 3 * ((n : ℤ) + 1) = (i + 3) + 3 * n := by ring
    rw [List.range_succ_eq_map, List.map_cons, List.map_map]
    push_cast
    rw [h3, ih (i + 3)]
    simp only [List.cons.injEq]
    constructor
    · ring
    · apply List.map_congr_left
      intro k _
      simp only [Function.comp_apply]
      push_cast
      ring

/-- The loop over a wall vertex set of `3 * P` entries visits windows
`0, 3, ..., 3 * (P - 2)`: one per consecutive pair of sampled points, the
final vertex triple excluded by the `verticesLength - 3` bound. -/
theorem jsLoop_vertices (P : ℕ) :
    jsLoop 0 (3 * (P : ℤ) - 3) = (List.range (P - 1)).map (fun k : ℕ => 3 * (k : ℤ)) := by
  cases P with
  | zero =>
    rw [jsLoop_unfold]
    norm_num
  | succ P =>
    have h : (3 * (((P + 1) : ℕ) : ℤ) - 3) = 0 + 3 * (P : ℕ) := by push_cast; ring
    rw [h, jsLoop_eq_map]
    simp

/-- The loop appends one segment per visited offset. -/
theorem buildSegments_length (commonId : ℕ) (g : GroundPolylineGeometry) :
    ∀ (starts : List ℤ) (lengthSoFar : ℚ),
      (buildSegments commonId g lengthSoFar starts).length = starts.length := by
  intro starts
  induction starts with
  | nil => intro _; rfl
  | cons i rest ih =>
    intro L
    simp only [buildSegments, List.length_cons, ih]

/-- Full characterization of the `k`-th produced segment: it is tagged with
the common id, carries the shared width and total length, its length is the
bottom length of its window, and its start distance is the initial
`lengthSoFar` plus the lengths of all earlier windows. -/
theorem buildSegments_getD (commonId : ℕ) (g : GroundPolylineGeometry) :
    ∀ (starts : List ℤ) (lengthSoFar : ℚ) (k : ℕ), k < starts.length →
      (buildSegments commonId g lengthSoFar starts).getD k dfltSeg =
        { id := commonId
          startDistance := lengthSoFar + ((starts.take k).map (segmentBottomLength g)).sum
          segmentLength := segmentBottomLength g (starts.getD k 0)
          totalLength := g.lengthOnEllipsoid
          width := g.width } := by
  intro starts
  induction starts with
  | nil =>
    intro L k hk
    simp at hk
  | cons i rest ih =>
    intro L k hk
    cases k with
    | zero =>
      simp [buildSegments]
    | succ k =>
      have hk' : k < rest.length := by simpa using hk
      simp only [buildSegments, List.getD_cons_succ]
      rw [ih (L + segmentBottomLength g i) k hk']
      simp only [List.take_succ_cons, List.map_cons, List.sum_cons, List.getD_cons_succ,
        Segment.mk.injEq, true_and, and_true]
      ring

/-- Decode-then-pack round trip: a 1–4 component buffer decodes to a value
that packs back to exactly the same components. -/
theorem pack_getAttributeValue (v : List ℚ) (h1 : 1 ≤ v.length) (h4 : v.length ≤ 4) :
    ∃ w, getAttributeValue v = some w ∧ pack w (List.replicate v.length 0) = v := by
  rcases v with _ | ⟨a, _ | ⟨b, _ | ⟨c, _ | ⟨d, _ | ⟨e, t⟩⟩⟩⟩⟩
  · simp at h1
  · exact ⟨_, rfl, rfl⟩
  · exact ⟨_, rfl, rfl⟩
  · exact ⟨_, rfl, rfl⟩
  · exact ⟨_, rfl, rfl⟩
  · simp at h4

/-- The indices the setter loop visits are exactly those of the closed
interval. -/
theorem mem_intRange {first last i : ℤ} :
    i ∈ intRange first last ↔ first ≤ i ∧ i ≤ last := by
  unfold intRange
  simp only [List.mem_map, List.mem_range]
  constructor
  · rintro ⟨n, hn, rfl⟩
    omega
  · rintro ⟨h1, h2⟩
    exact ⟨(i - first).toNat, by omega, by omega⟩

/-- Folding point updates of one common value over a list of indices: a slot
ends up holding the value iff its index was visited with the written
attribute index. -/
theorem foldl_setBatched_data (val : Option AttrValue) (k : ℕ) :
    ∀ (l : List ℤ) (bt : BatchTable) (i : ℤ) (j : ℕ),
      ((l.foldl (fun bt x => setBatchedAttribute bt x k val) bt).data i j)
        = if i ∈ l ∧ j = k then val else bt.data i j := by
  intro l
  induction l with
  | nil => simp
  | cons h t ih =>
    intro bt i j
    simp only [List.foldl_cons]
    rw [ih]
    by_cases hjk : j = k
    · by_cases hmem : i ∈ t
      · simp [hmem, hjk]
      · by_cases hih : i = h
        · simp [setBatchedAttribute, hih, hjk, hmem]
        · simp [setBatchedAttribute, hih, hjk, hmem]
    · simp [setBatchedAttribute, hjk]

/-- Point updates never touch the attribute declarations. -/
theorem foldl_setBatched_cpa (val : Option AttrValue) (k : ℕ) :
    ∀ (l : List ℤ) (bt : BatchTable),
      ((l.foldl (fun bt x => setBatchedAttribute bt x k val) bt).componentsPerAttribute)
        = bt.componentsPerAttribute := by
  intro l
  induction l with
  | nil => intro _; rfl
  | cons h t ih =>
    intro bt
    simp only [List.foldl_cons]
    rw [ih]
    rfl

/-- Slot contents after the setter's range write. -/
theorem setLoop_data (bt : BatchTable) (first last : ℤ) (k : ℕ) (v : List ℚ)
    (i : ℤ) (j : ℕ) :
    (setLoop bt first last k v).data i j
      = if (first ≤ i ∧ i ≤ last) ∧ j = k then getAttributeValue v else bt.data i j := by
  unfold setLoop
  rw [foldl_setBatched_data]
  have hcond : (i ∈ intRange first last ∧ j = k) ↔ ((first ≤ i ∧ i ≤ last) ∧ j = k) := by
    rw [mem_intRange]
  simp only [hcond]

/-- The setter's range write keeps the attribute declarations. -/
theorem setLoop_cpa (bt : BatchTable) (first last : ℤ) (k : ℕ) (v : List ℚ) :
    (setLoop bt first last k v).componentsPerAttribute = bt.componentsPerAttribute := by
  unfold setLoop
  rw [foldl_setBatched_cpa]

/-- Reading every position of a list through `getD` reproduces the list. -/
theorem map_getD_range (l : List ℚ) :
    (List.range l.length).map (fun k => l.getD k 0) = l := by
  induction l with
  | nil => rfl
  | cons a t ih =>
    rw [List.length_cons, List.range_succ_eq_map, List.map_cons, List.map_map]
    have hcomp : ((fun k => (a :: t).getD k 0) ∘ Nat.succ) = (fun k => t.getD k 0) := by
      funext k
      simp
    rw [List.getD_cons_zero, hcomp, ih]

/-- Extending a prefix by one element adds that element's image to the mapped
sum. -/
theorem map_sum_take_succ (f : ℤ → ℚ) (l : List ℤ) (k : ℕ) (hk : k < l.length) :
    ((l.take (k + 1)).map f).sum = ((l.take k).map f).sum + f (l.getD k 0) := by
  induction l generalizing k with
  | nil => simp at hk
  | cons a t ih =>
    cases k with
    | zero => simp
    | succ k =>
      have hk' : k < t.length := by simpa using hk
      simp only [List.take_succ_cons, List.map_cons, List.sum_cons, List.getD_cons_succ]
      rw [ih k hk']
      ring

/-- `decompose` appends the freshly built segments to the output list. -/
theorem decompose_fst (gi : GeometryInstance) (segs : List Segment) (idx : IndexMap) :
    (decompose gi segs idx).1
      = segs ++ buildSegments gi.id gi.geometry 0
          (jsLoop 0 ((verticesLength gi.geometry : ℤ) - 3)) := rfl

/-- `decompose` registers `[segmentIndicesStart, output length - 1]` for the
instance's id and leaves every other id's entry unchanged. -/
theorem decompose_snd (gi : GeometryInstance) (segs : List Segment) (idx : IndexMap)
    (x : ℕ) :
    (decompose gi segs idx).2 x
      = if x = gi.id
        then some ((segs.length : ℤ),
          (segs.length : ℤ)
            + ((jsLoop 0 ((verticesLength gi.geometry : ℤ) - 3)).length : ℤ) - 1)
        else idx x := by
  show (if x = gi.id
      then some ((segs.length : ℤ),
        (((segs ++ buildSegments gi.id gi.geometry 0
            (jsLoop 0 ((verticesLength gi.geometry : ℤ) - 3))).length : ℤ)) - 1)
      else idx x) = _
  rw [List.length_append, buildSegments_length]
  push_cast
  ring_nf

/-- The JavaScript loop bound `verticesLength - 3` over ℤ, in terms of the
point count. -/
theorem verticesLength_bound (g : GroundPolylineGeometry) :
    ((verticesLength g : ℤ)) - 3 = 3 * (g.pointCount : ℤ) - 3 := by
  unfold verticesLength
  push_cast
  ring

/-- The loop over a wall vertex set makes one iteration per consecutive pair
of sampled points. -/
theorem jsLoop_vertices_length (P : ℕ) :
    (jsLoop 0 (3 * (P : ℤ) - 3)).length = P - 1 := by
  rw [jsLoop_vertices]
  simp

/-- The bottom length of the window at flat offset `3 k` is the `k`-th edge
length. -/
theorem segmentBottomLength_window (g : GroundPolylineGeometry) (k : ℕ) :
    segmentBottomLength g (3 * (k : ℤ)) = g.edgeLens.getD k 0 := by
  unfold segmentBottomLength
  rw [Int.mul_ediv_cancel_left _ (by norm_num)]
  simp

/-- The `k`-th visited window offset is `3 k`. -/
theorem windows_getD (n k : ℕ) (hk : k < n) :
    ((List.range n).map (fun j : ℕ => 3 * (j : ℤ))).getD k 0 = 3 * (k : ℤ) := by
  have hlen : k < ((List.range n).map (fun j : ℕ => 3 * (j : ℤ))).length := by
    simpa using hk
  rw [List.getD_eq_getElem _ _ hlen]
  simp

/-- A prefix of the window-offset list. -/
theorem windows_take (n k : ℕ) (hk : k ≤ n) :
    ((List.range n).map (fun j : ℕ => 3 * (j : ℤ))).take k
      = (List.range k).map (fun j : ℕ => 3 * (j : ℤ)) := by
  rw [← List.map_take, List.take_range, Nat.min_eq_left hk]

/-- Summing the bottom lengths of all windows gives the sum of all edge
lengths. -/
theorem windows_sum (g : GroundPolylineGeometry) (n : ℕ) (hn : g.edgeLens.length = n) :
    (((List.range n).map (fun j : ℕ => 3 * (j : ℤ))).map (segmentBottomLength g)).sum
      = g.edgeLens.sum := by
  rw [List.map_map]
  have hcomp : (segmentBottomLength g ∘ fun j : ℕ => 3 * (j : ℤ))
      = fun k => g.edgeLens.getD k 0 := by
    funext k
    exact segmentBottomLength_window g k
  rw [hcomp, ← hn, map_getD_range]

/-- The produced segment lengths are the bottom lengths of the visited
windows. -/
theorem buildSegments_map_len (commonId : ℕ) (g : GroundPolylineGeometry) :
    ∀ (starts : List ℤ) (lengthSoFar : ℚ),
      (buildSegments commonId g lengthSoFar starts).map (·.segmentLength)
        = starts.map (segmentBottomLength g) := by
  intro starts
  induction starts with
  | nil => intro _; rfl
  | cons i rest ih =>
    intro L
    simp only [buildSegments, List.map_cons, ih]

/-- Consecutive produced segments meet exactly: the next start distance is the
previous start distance plus the previous segment length. -/
theorem buildSegments_chain (commonId : ℕ) (g : GroundPolylineGeometry)
    (starts : List ℤ) (lengthSoFar : ℚ) (k : ℕ) (hk : k + 1 < starts.length) :
    ((buildSegments commonId g lengthSoFar starts).getD (k + 1) dfltSeg).startDistance
      = ((buildSegments commonId g lengthSoFar starts).getD k dfltSeg).startDistance
        + ((buildSegments commonId g lengthSoFar starts).getD k dfltSeg).segmentLength := by
  rw [buildSegments_getD commonId g starts lengthSoFar (k + 1) hk,
    buildSegments_getD commonId g starts lengthSoFar k (Nat.lt_of_succ_lt hk),
    map_sum_take_succ (segmentBottomLength g) starts k (Nat.lt_of_succ_lt hk)]
  simp only
  ring

/-- C6: the codec's arity handling is determined solely by the buffer length:
a 1/2/3/4-component buffer decodes to the bare scalar or the 2/3/4-vector of
exactly its components — never clamped — and a buffer of any other length
yields no value at all (the JavaScript function falls through every branch
and returns `undefined`, surfaced to the immediate caller as the absent
result, embedded here as `none`). -/
theorem getAttributeValue_arity (v : List ℚ) :
    getAttributeValue v =
      match v with
      | [a] => some (AttrValue.scalar a)
      | [a, b] => some (AttrValue.vec2 a b)
      | [a, b, c] => some (AttrValue.vec3 a b c)
      | [a, b, c, d] => some (AttrValue.vec4 a b c d)
      | _ => none := by
  rcases v with _ | ⟨a, _ | ⟨b, _ | ⟨c, _ | ⟨d, _ | ⟨e, t⟩⟩⟩⟩⟩
  · rfl
  · rfl
  · rfl
  · rfl
  · rfl
  · simp only [getAttributeValue, List.length_cons]
    rw [if_neg (by omega), if_neg (by omega), if_neg (by omega), if_neg (by omega)]

/-- C7: a `Set` whose value is `undefined`, has no length, or has length 0 or
greater than 4 fails with the `DeveloperError` before the write loop runs, so
in this state-passing embedding no new store is produced and the caller keeps
the unmodified one (no partial range writes survive a rejected `Set`); a valid
1–4 component value produces a store in which every index from
`firstInstanceIndex` to `lastInstanceIndex` inclusive holds the decoded value
and all other slots are untouched. -/
theorem createSetFunction_validation (batchTable : BatchTable)
    (firstInstanceIndex lastInstanceIndex : ℤ) (attributeIndex : ℕ) :
    (createSetFunction firstInstanceIndex lastInstanceIndex attributeIndex batchTable none
        = Except.error invalidValueMsg)
    ∧ (∀ v : List ℚ, v.length = 0 ∨ 4 < v.length →
        createSetFunction firstInstanceIndex lastInstanceIndex attributeIndex batchTable
            (some v)
          = Except.error invalidValueMsg)
    ∧ (∀ v : List ℚ, 1 ≤ v.length → v.length ≤ 4 →
        ∃ bt', createSetFunction firstInstanceIndex lastInstanceIndex attributeIndex
              batchTable (some v)
            = Except.ok bt'
          ∧ (∀ i, firstInstanceIndex ≤ i → i ≤ lastInstanceIndex →
              bt'.data i attributeIndex = getAttributeValue v)
          ∧ (∀ i j, i < firstInstanceIndex ∨ lastInstanceIndex < i ∨ j ≠ attributeIndex →
              bt'.data i j = batchTable.data i j)) := by
  refine ⟨rfl, ?_, ?_⟩
  · intro v hv
    simp only [createSetFunction]
    rw [if_pos (by omega)]
  · intro v h1 h4
    refine ⟨setLoop batchTable firstInstanceIndex lastInstanceIndex attributeIndex v,
      ?_, ?_, ?_⟩
    · simp only [createSetFunction]
      rw [if_neg (by omega)]
    · intro i hi1 hi2
      rw [setLoop_data]
      simp [hi1, hi2]
    · intro i j hij
      rw [setLoop_data]
      rw [if_neg ?_]
      rintro ⟨⟨hi1, hi2⟩, hjk⟩
      rcases hij with h | h | h
      · omega
      · omega
      · exact h hjk

/-- C7 witness: at a concrete store and range, `Set` of an undefined value
errors, and `Set` of the valid value `[5]` succeeds and writes index 0 of the
range `[0, 1]`. -/
theorem createSetFunction_validation_witness :
    ∃ bt', createSetFunction 0 1 0 ⟨fun _ => 1, fun _ _ => none⟩ (some [5])
        = Except.ok bt'
      ∧ (∀ i, (0 : ℤ) ≤ i → i ≤ 1 →
          bt'.data i 0 = getAttributeValue [5])
      ∧ (∀ i j, i < 0 ∨ 1 < i ∨ j ≠ 0 →
          bt'.data i j = (⟨fun _ => 1, fun _ _ => none⟩ : BatchTable).data i j) :=
  (createSetFunction_validation ⟨fun _ => 1, fun _ _ => none⟩ 0 1 0).2.2
    [5] (by decide) (by decide)

/-- C8: decoding a 1–4 component buffer and re-encoding it through the pack
step of the getter (store the decoded value in a slot, then read it back
through `createGetFunction` with a matching declared arity) reproduces the
buffer's components exactly. -/
theorem decode_encode_roundtrip (batchTable : BatchTable) (i : ℤ) (attributeIndex : ℕ)
    (v : List ℚ) (h1 : 1 ≤ v.length) (h4 : v.length ≤ 4)
    (hcpa : batchTable.componentsPerAttribute attributeIndex = v.length) :
    createGetFunction i attributeIndex
        (setBatchedAttribute batchTable i attributeIndex (getAttributeValue v))
      = some v := by
  obtain ⟨w, hw, hp⟩ := pack_getAttributeValue v h1 h4
  have hslot : (setBatchedAttribute batchTable i attributeIndex
      (getAttributeValue v)).data i attributeIndex = some w := by
    simp [setBatchedAttribute, hw]
  unfold createGetFunction getBatchedAttribute
  simp only [hslot]
  have hc : (setBatchedAttribute batchTable i attributeIndex
      (getAttributeValue v)).componentsPerAttribute attributeIndex = v.length := hcpa
  rw [hc, hp]

/-- C8 witness: the concrete buffer `[1, 2]` survives the decode/re-encode
round trip. -/
theorem decode_encode_roundtrip_witness :
    createGetFunction 0 0
        (setBatchedAttribute ⟨fun _ => 2, fun _ _ => none⟩ 0 0 (getAttributeValue [1, 2]))
      = some [1, 2] :=
  decode_encode_roundtrip ⟨fun _ => 2, fun _ _ => none⟩ 0 0 [1, 2]
    (by decide) (by decide) rfl

/-- C1: for a logical id registered with range `[a, b]`, a `Set` of a valid
value through the synchronizer succeeds and yields a store in which every
index `a ≤ i ≤ b` holds the same decoded slot, the synchronizer's `Get`
(which reads index `a`) returns exactly the value's components, and every slot
outside the range (or of another attribute) is unchanged. -/
theorem synchronizer_set_uniformity
    (idsToInstanceIndices : IndexMap) (id : ℕ) (a b : ℤ)
    (_hreg : getGeometryInstanceAttributes idsToInstanceIndices id = some (a, b))
    (hab : a ≤ b)
    (batchTable : BatchTable) (attributeIndex : ℕ) (v : List ℚ)
    (h1 : 1 ≤ v.length) (h4 : v.length ≤ 4)
    (hcpa : batchTable.componentsPerAttribute attributeIndex = v.length) :
    ∃ bt', createSetFunction a b attributeIndex batchTable (some v) = Except.ok bt'
      ∧ (∀ i, a ≤ i → i ≤ b → bt'.data i attributeIndex = getAttributeValue v)
      ∧ createGetFunction a attributeIndex bt' = some v
      ∧ (∀ i j, i < a ∨ b < i ∨ j ≠ attributeIndex →
          bt'.data i j = batchTable.data i j) := by
  refine ⟨setLoop batchTable a b attributeIndex v, ?_, ?_, ?_, ?_⟩
  · simp only [createSetFunction]
    rw [if_neg (by omega)]
  · intro i hi1 hi2
    rw [setLoop_data]
    simp [hi1, hi2]
  · obtain ⟨w, hw, hp⟩ := pack_getAttributeValue v h1 h4
    have hslot : (setLoop batchTable a b attributeIndex v).data a attributeIndex
        = some w := by
      rw [setLoop_data, if_pos ⟨⟨le_refl a, hab⟩, rfl⟩, hw]
    unfold createGetFunction getBatchedAttribute
    simp only [hslot]
    have hc : (setLoop batchTable a b attributeIndex v).componentsPerAttribute
        attributeIndex = v.length := by
      rw [setLoop_cpa, hcpa]
    rw [hc, hp]
  · intro i j hij
    rw [setLoop_data]
    rw [if_neg ?_]
    rintro ⟨⟨hi1, hi2⟩, hjk⟩
    rcases hij with h | h | h
    · omega
    · omega
    · exact h hjk

/-- C1 witness: a two-point line with id 7 registers range `[0, 0]`; a `Set`
of `[9]` through that synchronizer uniformly writes the range, `Get` returns
`[9]`, and other slots are untouched. -/
theorem synchronizer_set_uniformity_witness :
    ∃ bt', createSetFunction 0 0 0 ⟨fun _ => 1, fun _ _ => none⟩ (some [9])
        = Except.ok bt'
      ∧ (∀ i, (0 : ℤ) ≤ i → i ≤ 0 → bt'.data i 0 = getAttributeValue [9])
      ∧ createGetFunction 0 0 bt' = some [9]
      ∧ (∀ i j, i < 0 ∨ 0 < i ∨ j ≠ 0 →
          bt'.data i j = (⟨fun _ => 1, fun _ _ => none⟩ : BatchTable).data i j) :=
  synchronizer_set_uniformity
    (decomposeAll [⟨7, ⟨1, 4, 2, [4]⟩⟩]).2
    7 0 0 (by decide) (by decide) ⟨fun _ => 1, fun _ _ => none⟩ 0 [9]
    (by decide) (by decide) rfl

/-- C3: the decomposition loop walks the wall vertex set in steps of three
entries with bound `verticesLength - 3`: it produces exactly
`(verticesLength - 3) / 3` segments, one per 3-entry window starting at flat
offsets 0, 3, 6, ..., and the final vertex triple (the window at offset
`verticesLength - 3`) is excluded by the bound and produces no segment. -/
theorem decompose_window_stepping (gi : GeometryInstance) :
    ((decompose gi [] (fun _ => none)).1).length
        = (verticesLength gi.geometry - 3) / 3
    ∧ jsLoop 0 ((verticesLength gi.geometry : ℤ) - 3)
        = (List.range (verticesLength gi.geometry / 3 - 1)).map (fun k : ℕ => 3 * (k : ℤ))
    ∧ ((verticesLength gi.geometry : ℤ) - 3)
        ∉ jsLoop 0 ((verticesLength gi.geometry : ℤ) - 3) := by
  have hb := verticesLength_bound gi.geometry
  have hwin := jsLoop_vertices gi.geometry.pointCount
  have hdiv : verticesLength gi.geometry / 3 = gi.geometry.pointCount := by
    unfold verticesLength
    exact Nat.mul_div_cancel_left _ (by norm_num)
  refine ⟨?_, ?_, ?_⟩
  · rw [decompose_fst, List.nil_append, buildSegments_length, hb, jsLoop_vertices_length]
    unfold verticesLength
    generalize gi.geometry.pointCount = P
    cases P with
    | zero => rfl
    | succ n =>
      have h3 : 3 * (n + 1) - 3 = 3 * n := by omega
      rw [h3, Nat.mul_div_cancel_left _ (by norm_num)]
      omega
  · rw [hb, hwin, hdiv]
  · rw [hb, hwin]
    intro hmem
    obtain ⟨k, hk, hek⟩ := List.mem_map.mp hmem
    have hk' := List.mem_range.mp hk
    omega

/-- C3 witness: a concrete three-point line has a 9-entry vertex set and
produces `(9 - 3) / 3 = 2` segments from the windows at offsets 0 and 3. -/
theorem decompose_window_stepping_witness :
    ((decompose (⟨3, ⟨1, 5, 3, [2, 3]⟩⟩ : GeometryInstance) [] (fun _ => none)).1).length
        = (verticesLength (⟨1, 5, 3, [2, 3]⟩ : GroundPolylineGeometry) - 3) / 3
    ∧ jsLoop 0 ((verticesLength (⟨1, 5, 3, [2, 3]⟩ : GroundPolylineGeometry) : ℤ) - 3)
        = (List.range (verticesLength (⟨1, 5, 3, [2, 3]⟩ : GroundPolylineGeometry) / 3 - 1)).map
            (fun k : ℕ => 3 * (k : ℤ))
    ∧ ((verticesLength (⟨1, 5, 3, [2, 3]⟩ : GroundPolylineGeometry) : ℤ) - 3)
        ∉ jsLoop 0 ((verticesLength (⟨1, 5, 3, [2, 3]⟩ : GroundPolylineGeometry) : ℤ) - 3) :=
  decompose_window_stepping ⟨3, ⟨1, 5, 3, [2, 3]⟩⟩

/-- C2: for a valid logical line (one edge per consecutive pair of sampled
points, at least two points, positive edge lengths, `lengthOnEllipsoid` the
path's total length), the produced segments tile `[0, total length]` exactly:
the first start distance is 0, each next start distance is the previous start
plus the previous segment length (hence strictly increasing), the segment
lengths sum to the total length, and the last segment ends exactly at it. -/
theorem decompose_tiles_line_length (gi : GeometryInstance)
    (hWF : gi.geometry.edgeLens.length = gi.geometry.pointCount - 1)
    (hP : 2 ≤ gi.geometry.pointCount)
    (hpos : ∀ l ∈ gi.geometry.edgeLens, 0 < l)
    (htot : gi.geometry.lengthOnEllipsoid = gi.geometry.edgeLens.sum) :
    ∀ segs : List Segment, segs = (decompose gi [] (fun _ => none)).1 →
      segs.length = gi.geometry.pointCount - 1
      ∧ (segs.getD 0 dfltSeg).startDistance = 0
      ∧ (∀ k, k + 1 < segs.length →
          (segs.getD (k + 1) dfltSeg).startDistance
            = (segs.getD k dfltSeg).startDistance
              + (segs.getD k dfltSeg).segmentLength)
      ∧ (∀ k, k + 1 < segs.length →
          (segs.getD k dfltSeg).startDistance
            < (segs.getD (k + 1) dfltSeg).startDistance)
      ∧ (segs.map (·.segmentLength)).sum = gi.geometry.lengthOnEllipsoid
      ∧ (segs.getD (segs.length - 1) dfltSeg).startDistance
          + (segs.getD (segs.length - 1) dfltSeg).segmentLength
          = gi.geometry.lengthOnEllipsoid := by
  intro segs hseg
  set W : List ℤ :=
    (List.range (gi.geometry.pointCount - 1)).map (fun k : ℕ => 3 * (k : ℤ)) with hWdef
  have hfst : segs = buildSegments gi.id gi.geometry 0 W := by
    rw [hseg, decompose_fst, List.nil_append, verticesLength_bound, jsLoop_vertices]
  have hWlen : W.length = gi.geometry.pointCount - 1 := by
    rw [hWdef]
    simp
  have hlen : segs.length = gi.geometry.pointCount - 1 := by
    rw [hfst, buildSegments_length, hWlen]
  have hstart0 : (segs.getD 0 dfltSeg).startDistance = 0 := by
    rw [hfst, buildSegments_getD _ _ _ _ 0 (by rw [hWlen]; omega)]
    simp
  have hchain : ∀ k, k + 1 < segs.length →
      (segs.getD (k + 1) dfltSeg).startDistance
        = (segs.getD k dfltSeg).startDistance + (segs.getD k dfltSeg).segmentLength := by
    intro k hk
    rw [hlen] at hk
    rw [hfst]
    exact buildSegments_chain _ _ _ _ k (by rw [hWlen]; exact hk)
  have hlenk : ∀ k, k < segs.length →
      (segs.getD k dfltSeg).segmentLength = gi.geometry.edgeLens.getD k 0 := by
    intro k hk
    rw [hlen] at hk
    rw [hfst, buildSegments_getD _ _ _ _ k (by rw [hWlen]; exact hk)]
    simp only
    rw [hWdef, windows_getD _ k hk, segmentBottomLength_window]
  have hstrict : ∀ k, k + 1 < segs.length →
      (segs.getD k dfltSeg).startDistance
        < (segs.getD (k + 1) dfltSeg).startDistance := by
    intro k hk
    rw [hchain k hk, hlenk k (by omega)]
    have hkE : k < gi.geometry.edgeLens.length := by
      rw [hWF]
      rw [hlen] at hk
      omega
    have hmem : gi.geometry.edgeLens.getD k 0 ∈ gi.geometry.edgeLens := by
      rw [List.getD_eq_getElem _ _ hkE]
      exact List.getElem_mem hkE
    have hpk := hpos _ hmem
    linarith
  have hsum : (segs.map (·.segmentLength)).sum = gi.geometry.lengthOnEllipsoid := by
    rw [hfst, buildSegments_map_len, hWdef,
      windows_sum gi.geometry _ hWF, htot]
  have hlast : (segs.getD (segs.length - 1) dfltSeg).startDistance
      + (segs.getD (segs.length - 1) dfltSeg).segmentLength
      = gi.geometry.lengthOnEllipsoid := by
    have hBlen : (buildSegments gi.id gi.geometry 0 W).length = W.length :=
      buildSegments_length _ _ _ _
    have hWpos : 0 < W.length := by
      rw [hWlen]
      omega
    have hidx : W.length - 1 < W.length := by omega
    rw [hfst, hBlen, buildSegments_getD _ _ _ _ (W.length - 1) hidx]
    simp only
    rw [zero_add, ← map_sum_take_succ (segmentBottomLength gi.geometry) W (W.length - 1) hidx]
    have h2 : W.length - 1 + 1 = W.length := by omega
    rw [h2, List.take_length, hWdef, windows_sum gi.geometry _ hWF, htot]
  exact ⟨hlen, hstart0, hchain, hstrict, hsum, hlast⟩

/-- C2 witness: the three-point line with edges `[2, 3]` and total length 5
produces two segments `(0, 2)` and `(2, 3)` tiling `[0, 5]`. -/
theorem decompose_tiles_line_length_witness :
    (((decompose (⟨5, ⟨1, 5, 3, [2, 3]⟩⟩ : GeometryInstance) [] (fun _ => none)).1).map
        (·.segmentLength)).sum = (5 : ℚ)
    ∧ (((decompose (⟨5, ⟨1, 5, 3, [2, 3]⟩⟩ : GeometryInstance) []
        (fun _ => none)).1).getD 0 dfltSeg).startDistance = 0 := by
  have h := decompose_tiles_line_length (⟨5, ⟨1, 5, 3, [2, 3]⟩⟩ : GeometryInstance)
    (by decide) (by decide)
    (by intro l hl
        fin_cases hl <;> norm_num)
    (by norm_num [List.sum_cons, List.sum_nil]) _ rfl
  exact ⟨h.2.2.2.2.1, h.2.1⟩

/-- An inverted interval gives an empty setter loop. -/
theorem intRange_empty {first last : ℤ} (h : last < first) : intRange first last = [] := by
  unfold intRange
  have h0 : (last + 1 - first).toNat = 0 := by omega
  rw [h0]
  rfl

/-- Every produced segment carries the line's shared width, whatever its
sign. -/
theorem buildSegments_width (commonId : ℕ) (g : GroundPolylineGeometry) :
    ∀ (starts : List ℤ) (lengthSoFar : ℚ) (s : Segment),
      s ∈ buildSegments commonId g lengthSoFar starts → s.width = g.width := by
  intro starts
  induction starts with
  | nil =>
    intro L s hs
    simp [buildSegments] at hs
  | cons i rest ih =>
    intro L s hs
    simp only [buildSegments] at hs
    rcases List.mem_cons.mp hs with rfl | hs'
    · rfl
    · exact ih _ s hs'

/-- A degenerate line (at most one sampled point) appends no segments, yet its
id is still registered — with the inverted range
`[segs.length, segs.length - 1]`. -/
theorem decompose_degenerate (gi : GeometryInstance)
    (hdeg : gi.geometry.pointCount ≤ 1) (segs : List Segment) (idx : IndexMap) :
    (decompose gi segs idx).1 = segs
    ∧ ∀ x, (decompose gi segs idx).2 x
        = if x = gi.id then some ((segs.length : ℤ), (segs.length : ℤ) - 1)
          else idx x := by
  have hempty : jsLoop 0 ((verticesLength gi.geometry : ℤ) - 3) = [] := by
    rw [verticesLength_bound, jsLoop_unfold, if_neg (by omega)]
  constructor
  · rw [decompose_fst, hempty]
    simp [buildSegments]
  · intro x
    rw [decompose_snd, hempty]
    by_cases hx : x = gi.id
    · rw [if_pos hx, if_pos hx]
      norm_num
    · rw [if_neg hx, if_neg hx]

/-- Invariant of the decomposition pass: starting from a state whose
registered ranges lie inside the already-produced segment list (allowing the
inverted empty range) and are pairwise disjoint, every state reached by
folding `decompose` over further lines keeps both properties. -/
theorem decomposeAll_inv (lines : List GeometryInstance) :
    ∀ (segs : List Segment) (idx : IndexMap),
      (∀ X f l, idx X = some (f, l) → 0 ≤ f ∧ f - 1 ≤ l ∧ l < (segs.length : ℤ)) →
      (∀ X Y fX lX fY lY, X ≠ Y → idx X = some (fX, lX) → idx Y = some (fY, lY) →
          ∀ i, ¬ (rangeMem i (fX, lX) ∧ rangeMem i (fY, lY))) →
      ((∀ X f l,
          (lines.foldl (fun acc gi => decompose gi acc.1 acc.2) (segs, idx)).2 X
            = some (f, l) →
          0 ≤ f ∧ f - 1 ≤ l
            ∧ l < (((lines.foldl (fun acc gi => decompose gi acc.1 acc.2)
                (segs, idx)).1.length : ℤ)))
        ∧ (∀ X Y fX lX fY lY, X ≠ Y →
            (lines.foldl (fun acc gi => decompose gi acc.1 acc.2) (segs, idx)).2 X
              = some (fX, lX) →
            (lines.foldl (fun acc gi => decompose gi acc.1 acc.2) (segs, idx)).2 Y
              = some (fY, lY) →
            ∀ i, ¬ (rangeMem i (fX, lX) ∧ rangeMem i (fY, lY)))) := by
  induction lines with
  | nil =>
    intro segs idx h1 h2
    simp only [List.foldl_nil]
    exact ⟨h1, h2⟩
  | cons gi rest ih =>
    intro segs idx h1 h2
    simp only [List.foldl_cons]
    have hlen' : ((decompose gi segs idx).1.length : ℤ)
        = (segs.length : ℤ)
          + ((jsLoop 0 ((verticesLength gi.geometry : ℤ) - 3)).length : ℤ) := by
      rw [decompose_fst, List.length_append, buildSegments_length]
      push_cast
      ring
    refine ih (decompose gi segs idx).1 (decompose gi segs idx).2 ?_ ?_
    · intro X f l hX
      by_cases hXi : X = gi.id
      · rw [decompose_snd, if_pos hXi] at hX
        simp only [Option.some.injEq, Prod.mk.injEq] at hX
        obtain ⟨rfl, rfl⟩ := hX
        refine ⟨by omega, by omega, by omega⟩
      · rw [decompose_snd, if_neg hXi] at hX
        obtain ⟨ha, hb, hc⟩ := h1 X f l hX
        exact ⟨ha, hb, by omega⟩
    · intro X Y fX lX fY lY hXY hX hY i hi
      obtain ⟨hiX, hiY⟩ := hi
      by_cases hXi : X = gi.id <;> by_cases hYi : Y = gi.id
      · exact hXY (hXi.trans hYi.symm)
      · rw [decompose_snd, if_pos hXi] at hX
        rw [decompose_snd, if_neg hYi] at hY
        simp only [Option.some.injEq, Prod.mk.injEq] at hX
        obtain ⟨rfl, rfl⟩ := hX
        obtain ⟨-, -, hYc⟩ := h1 Y fY lY hY
        unfold rangeMem at hiX hiY
        omega
      · rw [decompose_snd, if_neg hXi] at hX
        rw [decompose_snd, if_pos hYi] at hY
        simp only [Option.some.injEq, Prod.mk.injEq] at hY
        obtain ⟨rfl, rfl⟩ := hY
        obtain ⟨-, -, hXc⟩ := h1 X fX lX hX
        unfold rangeMem at hiX hiY
        omega
      · rw [decompose_snd, if_neg hXi] at hX
        rw [decompose_snd, if_neg hYi] at hY
        exact h2 X Y fX lX fY lY hXY hX hY i ⟨hiX, hiY⟩

/-- C4 counterexample: a one-point (degenerate) line with id 7 produces zero
segments, yet after decomposition id 7 is present in the Instance Range Index
with the inverted range `[0, -1]` rather than absent, and
`getGeometryInstanceAttributes` on id 7 returns a synchronizer range, not
`undefined`. -/
theorem degenerate_line_registered_cex :
    (decomposeAll [⟨7, ⟨1, 0, 1, []⟩⟩]).1 = []
    ∧ (decomposeAll [⟨7, ⟨1, 0, 1, []⟩⟩]).2 7 = some (0, -1)
    ∧ getGeometryInstanceAttributes (decomposeAll [⟨7, ⟨1, 0, 1, []⟩⟩]).2 7 ≠ none := by
  decide

/-- C4 amended: a line producing zero segments is still registered, with the
inverted range `[segs.length, segs.length - 1]`; `getGeometryInstanceAttributes`
returns a synchronizer over that empty range (whose `Set` loop writes no
slots and leaves the store unchanged), and returns `undefined` only for ids
that were never decomposed. -/
theorem degenerate_line_inverted_range (gi : GeometryInstance)
    (hdeg : gi.geometry.pointCount ≤ 1) (segs : List Segment) (idx : IndexMap) :
    (decompose gi segs idx).1 = segs
    ∧ getGeometryInstanceAttributes (decompose gi segs idx).2 gi.id
        = some ((segs.length : ℤ), (segs.length : ℤ) - 1)
    ∧ (∀ (batchTable : BatchTable) (attributeIndex : ℕ) (v : List ℚ),
        1 ≤ v.length → v.length ≤ 4 →
        createSetFunction (segs.length : ℤ) ((segs.length : ℤ) - 1) attributeIndex
            batchTable (some v)
          = Except.ok batchTable)
    ∧ (∀ id', id' ≠ gi.id →
        getGeometryInstanceAttributes (decompose gi segs idx).2 id' = idx id') := by
  obtain ⟨hfst, hsnd⟩ := decompose_degenerate gi hdeg segs idx
  refine ⟨hfst, ?_, ?_, ?_⟩
  · unfold getGeometryInstanceAttributes
    rw [hsnd, if_pos rfl]
  · intro bt k v h1 h4
    simp only [createSetFunction]
    rw [if_neg (by omega)]
    unfold setLoop
    rw [intRange_empty (by omega)]
    rfl
  · intro id' hid
    unfold getGeometryInstanceAttributes
    rw [hsnd, if_neg hid]

/-- C4 witness: the degenerate one-point line with id 7, decomposed into an
empty batch, appends nothing and is registered with range `[0, -1]`. -/
theorem degenerate_line_inverted_range_witness :
    (decompose (⟨7, ⟨1, 0, 1, []⟩⟩ : GeometryInstance) [] (fun _ => none)).1 = []
    ∧ getGeometryInstanceAttributes
        (decompose (⟨7, ⟨1, 0, 1, []⟩⟩ : GeometryInstance) [] (fun _ => none)).2 7
        = some (0, (0 : ℤ) - 1) := by
  have h := degenerate_line_inverted_range ⟨7, ⟨1, 0, 1, []⟩⟩ (by decide) []
    (fun _ => none)
  exact ⟨h.1, h.2.1⟩

/-- C5 counterexample: after decomposing a batch whose first line is
degenerate, that id's registered range is `[0, -1]`, violating the claimed
`first ≤ last`. -/
theorem inverted_range_first_gt_last_cex :
    (decomposeAll [⟨7, ⟨1, 0, 1, []⟩⟩, ⟨8, ⟨1, 4, 2, [4]⟩⟩]).2 7 = some (0, -1)
    ∧ ¬ ((0 : ℤ) ≤ -1) := by
  decide

/-- C5 amended: every range registered by the decomposition pass satisfies
`first - 1 ≤ last` and lies below the output length — `first ≤ last` holds
exactly when the line produced at least one segment, while a zero-segment line
registers the inverted empty range `last = first - 1` containing no index —
and the ranges of any two distinct registered ids share no segment index. -/
theorem ranges_bounds_and_disjoint (lines : List GeometryInstance) :
    (∀ X f l, (decomposeAll lines).2 X = some (f, l) →
        0 ≤ f ∧ f - 1 ≤ l ∧ l < ((decomposeAll lines).1.length : ℤ))
    ∧ (∀ X Y fX lX fY lY, X ≠ Y →
        (decomposeAll lines).2 X = some (fX, lX) →
        (decomposeAll lines).2 Y = some (fY, lY) →
        ∀ i, ¬ (rangeMem i (fX, lX) ∧ rangeMem i (fY, lY))) := by
  have h := decomposeAll_inv lines [] (fun _ => none)
    (by intro X f l hX; simp at hX)
    (by intro X Y fX lX fY lY hXY hX hY; simp at hX)
  exact h

/-- C5 witness: in a two-line batch the ranges `[0, 0]` and `[1, 2]` are
registered; the first satisfies the bounds and index 0 is in no other id's
range. -/
theorem ranges_bounds_and_disjoint_witness :
    ((0 : ℤ) ≤ 0 ∧ (0 : ℤ) - 1 ≤ 0
      ∧ (0 : ℤ) < ((decomposeAll
          [⟨7, ⟨1, 4, 2, [4]⟩⟩, ⟨8, ⟨1, 6, 3, [3, 3]⟩⟩]).1.length : ℤ))
    ∧ ¬ (rangeMem 0 ((0 : ℤ), (0 : ℤ)) ∧ rangeMem 0 ((1 : ℤ), (2 : ℤ))) := by
  have h := ranges_bounds_and_disjoint [⟨7, ⟨1, 4, 2, [4]⟩⟩, ⟨8, ⟨1, 6, 3, [3, 3]⟩⟩]
  exact ⟨h.1 7 0 0 (by decide), h.2 7 8 0 0 1 2 (by decide) (by decide) (by decide) 0⟩

/-- C9 counterexample: in the batch `[degenerate, valid]` the degenerate line
(one sampled point — no usable path) is not skipped and no error is
signalled: it is registered with range `[0, -1]`, while the sibling is
decomposed normally into range `[0, 0]`. -/
theorem no_skip_validation_cex :
    (decomposeAll [⟨7, ⟨1, 0, 1, []⟩⟩, ⟨8, ⟨1, 4, 2, [4]⟩⟩]).2 7 ≠ none
    ∧ (decomposeAll [⟨7, ⟨1, 0, 1, []⟩⟩, ⟨8, ⟨1, 4, 2, [4]⟩⟩]).2 7 = some (0, -1)
    ∧ (decomposeAll [⟨7, ⟨1, 0, 1, []⟩⟩, ⟨8, ⟨1, 4, 2, [4]⟩⟩]).2 8 = some (0, 0) := by
  decide

/-- C9 amended: `decompose` performs no input validation: a line with fewer
than two sampled points is processed rather than skipped (it yields zero
segments and the inverted range `[0, -1]`, with no error — decomposition is a
total function here), sibling lines are decomposed exactly as they would be
alone, and a non-positive width is attached to every produced segment
unchanged rather than rejected. -/
theorem degenerate_not_skipped_siblings_proceed
    (bad good : GeometryInstance)
    (hdeg : bad.geometry.pointCount ≤ 1)
    (hids : bad.id ≠ good.id) :
    (decomposeAll [bad, good]).1 = (decomposeAll [good]).1
    ∧ (decomposeAll [bad, good]).2 good.id = (decomposeAll [good]).2 good.id
    ∧ (decomposeAll [bad, good]).2 bad.id = some (0, -1)
    ∧ (∀ gi : GeometryInstance, ∀ s ∈ (decompose gi [] (fun _ => none)).1,
        s.width = gi.geometry.width) := by
  obtain ⟨hb1, hb2⟩ := decompose_degenerate bad hdeg [] (fun _ => none)
  have hall : decomposeAll [bad, good]
      = decompose good (decompose bad [] (fun _ => none)).1
          (decompose bad [] (fun _ => none)).2 := by
    unfold decomposeAll
    rw [List.foldl_cons, List.foldl_cons, List.foldl_nil]
  have hone : decomposeAll [good]
      = decompose good [] (fun _ => none) := by
    unfold decomposeAll
    rw [List.foldl_cons, List.foldl_nil]
  refine ⟨?_, ?_, ?_, ?_⟩
  · rw [hall, hone, hb1,
      decompose_fst good [] (decompose bad [] (fun _ => none)).2,
      decompose_fst good [] (fun _ => none)]
  · rw [hall, hone, hb1,
      decompose_snd good [] (decompose bad [] (fun _ => none)).2 good.id,
      decompose_snd good [] (fun _ => none) good.id,
      if_pos rfl, if_pos rfl]
  · rw [hall, decompose_snd, if_neg hids, hb2, if_pos rfl]
    norm_num
  · intro gi s hs
    rw [decompose_fst, List.nil_append] at hs
    exact buildSegments_width gi.id gi.geometry _ 0 s hs

/-- C9 witness: the concrete batch `[⟨7, degenerate⟩, ⟨8, two-point⟩]`:
id 7 is registered (range `[0, -1]`), and id 8's registration is identical to
what decomposing it alone yields. -/
theorem degenerate_not_skipped_siblings_proceed_witness :
    (decomposeAll [⟨7, ⟨1, 0, 1, []⟩⟩, ⟨8, ⟨1, 4, 2, [4]⟩⟩]).2 7 = some (0, -1)
    ∧ (decomposeAll [⟨7, ⟨1, 0, 1, []⟩⟩, ⟨8, ⟨1, 4, 2, [4]⟩⟩]).2 8
        = (decomposeAll [⟨8, ⟨1, 4, 2, [4]⟩⟩]).2 8 := by
  have h := degenerate_not_skipped_siblings_proceed
    ⟨7, ⟨1, 0, 1, []⟩⟩ ⟨8, ⟨1, 4, 2, [4]⟩⟩ (by decide) (by decide)
  exact ⟨h.2.2.1, h.2.1⟩

/-- C10: decomposing a later geometry instance carrying an id already seen
overwrites that id's entry in the Instance Range Index (last writer wins):
after the pass, the lookup returns exactly the last-decomposed line's range,
which starts at the number of segments produced before it, so every index it
addresses lies at or beyond that start and the earlier line's segments (all at
smaller indices) are no longer reachable through the index. -/
theorem duplicate_id_last_writer_wins (ls : List GeometryInstance)
    (a : GeometryInstance) (_ha : a ∈ ls) (b : GeometryInstance)
    (_hid : a.id = b.id) :
    (decomposeAll (ls ++ [b])).2 b.id
        = some (((decomposeAll ls).1.length : ℤ),
            ((decomposeAll ls).1.length : ℤ)
              + ((jsLoop 0 ((verticesLength b.geometry : ℤ) - 3)).length : ℤ) - 1)
    ∧ (decomposeAll (ls ++ [b])).1
        = (decomposeAll ls).1 ++ (decompose b [] (fun _ => none)).1
    ∧ (∀ i : ℤ, rangeMem i (((decomposeAll ls).1.length : ℤ),
          ((decomposeAll ls).1.length : ℤ)
            + ((jsLoop 0 ((verticesLength b.geometry : ℤ) - 3)).length : ℤ) - 1) →
        ((decomposeAll ls).1.length : ℤ) ≤ i) := by
  have hfold : decomposeAll (ls ++ [b])
      = decompose b (decomposeAll ls).1 (decomposeAll ls).2 := by
    unfold decomposeAll
    rw [List.foldl_append, List.foldl_cons, List.foldl_nil]
  refine ⟨?_, ?_, ?_⟩
  · rw [hfold, decompose_snd, if_pos rfl]
  · rw [hfold, decompose_fst, decompose_fst, List.nil_append]
  · intro i hi
    exact hi.1

/-- C10 witness: two instances with id 7; after decomposition the index maps
7 to the second line's range `[1, 2]`, whose indices are all at least 1, so
the first line's single segment (index 0) is unreachable through the index. -/
theorem duplicate_id_last_writer_wins_witness :
    (decomposeAll ([⟨7, ⟨1, 4, 2, [4]⟩⟩] ++ [⟨7, ⟨1, 6, 3, [3, 3]⟩⟩])).2 7
        = some (1, 2)
    ∧ (∀ i : ℤ, rangeMem i ((1 : ℤ), (2 : ℤ)) → (1 : ℤ) ≤ i) := by
  have h := duplicate_id_last_writer_wins [⟨7, ⟨1, 4, 2, [4]⟩⟩]
    ⟨7, ⟨1, 4, 2, [4]⟩⟩ (List.mem_singleton_self _) ⟨7, ⟨1, 6, 3, [3, 3]⟩⟩ rfl
  exact ⟨h.1, fun i hi => h.2.2 i hi⟩

end GroundPolyline
